import Mathlib

/-
Verification of the needle search engine (needle/search.py): the key
algebra (parse_key, assemble_key, key_depth), the flattening walk
(_flatten / atomic) and the Search operations (get, find, subsearch,
max_depth, fixed_depth, __getitem__, __eq__).

Python strings are modelled as Lean strings; character-level operations
(iteration, startswith, removeprefix, strip, substring containment) are
carried out on their character lists, which is exactly what the Python
operations do.  Python exceptions are modelled by the error kind of an
Except value: KeyError, IndexError, TypeError, ValueError.
-/

namespace Needle

/-- Kinds of Python exceptions the code can raise. -/
inductive PyErr where
  | keyError
  | indexError
  | typeError
  | valueError
  deriving DecidableEq, Repr

/-- One parsed unit of a path key: a field name or a sequence index
(`parse_key` returns a `list[str | int]`). -/
inductive Part where
  | fld (s : String)
  | idx (n : Nat)
  deriving DecidableEq, Repr

/-- The tree values the engine searches: scalars (int, float, bool, str,
None) and containers (dict with string field names, list/tuple).  A float
enters the engine only as an opaque atomic leaf (no arithmetic is ever
performed on it), so it is represented by an opaque tag. -/
inductive TreeV where
  | vInt (n : Int)
  | vFloat (tag : Nat)
  | vBool (b : Bool)
  | vStr (s : String)
  | vNone
  | vObj (fields : List (String × TreeV))
  | vSeq (items : List TreeV)

/-- atomic(obj): isinstance(obj, (int, float, bool, str)) or obj is None. -/
def atomic : TreeV → Bool
  | .vObj _ => false
  | .vSeq _ => false
  | _ => true

/-- Decimal digit test of the index grammar, modelling `ch.isdigit()`.
The model is exact on the ASCII range: an ASCII character passes iff it
is one of '0'..'9'.  Python's `str.isdigit` additionally accepts
non-ASCII Unicode digit characters (and `int` accepts non-ASCII decimal
digits); keys built by the flattening walk contain only ASCII digits, and
statements about the acceptance boundary of parse_key are made only for
ASCII-range characters, where this test coincides with Python's. -/
def isDig (c : Char) : Bool := 48 ≤ c.toNat && c.toNat ≤ 57

/-- Value of a string of decimal digits, as computed by Python `int`. -/
def natOfDigits (l : List Char) : Nat :=
  l.foldl (fun n c => n * 10 + (c.toNat - 48)) 0

/-- Decimal digit character for d < 10. -/
def digitChar10 (d : Nat) : Char :=
  match d with
  | 0 => '0' | 1 => '1' | 2 => '2' | 3 => '3' | 4 => '4'
  | 5 => '5' | 6 => '6' | 7 => '7' | 8 => '8' | _ => '9'

/-- Decimal rendering with explicit recursion fuel; fuel larger than the
number renders every digit. -/
def digitsOfAux : Nat → Nat → List Char
  | 0, _ => []
  | fuel + 1, n =>
    if n < 10 then [digitChar10 n]
    else digitsOfAux fuel (n / 10) ++ [digitChar10 (n % 10)]

/-- Decimal rendering of a natural number (Python `str(index)` used by the
f-string `f"{parent}[{index}]"`). -/
def digitsOf (n : Nat) : List Char := digitsOfAux (n + 1) n

/-- State of the character loop inside parse_key: the pending field-name
buffer `str_key`, the pending index buffer `int_key`, the `digit` flag and
the parts collected so far. -/
structure PState where
  sk : List Char
  ik : List Char
  dig : Bool
  parts : List Part
  deriving DecidableEq, Repr

/-- Flush the pending field-name buffer (`if str_key: parts.append(str_key)`). -/
def flushSk (sk : List Char) (parts : List Part) : List Part :=
  if sk = [] then parts else parts ++ [.fld (String.mk sk)]

/-- One iteration of the parse_key loop body on character `ch`. -/
def stepP (st : PState) (c : Char) : Except PyErr PState :=
  if c = '.' then
    .ok ⟨[], st.ik, st.dig, flushSk st.sk st.parts⟩
  else if c = '[' then
    .ok ⟨[], st.ik, true, flushSk st.sk st.parts⟩
  else if c = ']' then
    if st.ik = [] then .error .valueError
    else .ok ⟨st.sk, [], false, st.parts ++ [.idx (natOfDigits st.ik)]⟩
  else if st.dig then
    if isDig c then .ok ⟨st.sk, st.ik ++ [c], st.dig, st.parts⟩
    else .error .valueError
  else
    .ok ⟨st.sk ++ [c], st.ik, st.dig, st.parts⟩

/-- The parse_key loop over the characters of the key. -/
def runP : List Char → PState → Except PyErr PState
  | [], st => .ok st
  | c :: cs, st =>
    match stepP st c with
    | .ok st2 => runP cs st2
    | .error e => .error e

/-- Initial loop state: empty buffers, digit flag off, no parts. -/
def initSt : PState := ⟨[], [], false, []⟩

/-- parse_key on a character list: run the loop, then flush the pending
field-name buffer at end of input. -/
def parseList (cs : List Char) : Except PyErr (List Part) :=
  match runP cs initSt with
  | .ok st => .ok (flushSk st.sk st.parts)
  | .error e => .error e

/-- parse_key(key): parses a key into a list of parts; raises ValueError
on a malformed key. -/
def parse_key (key : String) : Except PyErr (List Part) :=
  parseList key.toList

/-- First element = '[' and last element = ']' (part.startswith("[") and
part.endswith("]")). -/
def bracketWrapped (l : List Char) : Bool :=
  l.head? == some '[' && l.getLast? == some ']'

/-- Character rendering used by assemble_key before the final strip:
an int part renders as "[part]", a bracket-wrapped field renders
verbatim, any other field renders as ".part". -/
def asmChars : List Part → List Char
  | [] => []
  | .idx n :: rest => '[' :: (digitsOf n ++ ']' :: asmChars rest)
  | .fld s :: rest =>
    (if bracketWrapped s.toList then s.toList else '.' :: s.toList) ++ asmChars rest

/-- Drop trailing '.' characters. -/
def dropTrailDots (l : List Char) : List Char :=
  (l.reverse.dropWhile (· = '.')).reverse

/-- Python str.strip("."): drop leading and trailing '.' characters. -/
def stripDotsL (l : List Char) : List Char :=
  dropTrailDots (l.dropWhile (· = '.'))

/-- strip(".") on a string. -/
def stripDots (s : String) : String := String.mk (stripDotsL s.toList)

/-- assemble_key(parts): render every part and strip '.' from both ends of
the concatenation. -/
def assemble_key (parts : List Part) : String :=
  String.mk (stripDotsL (asmChars parts))

/-- key_depth(key): len(parse_key(key)) - 1, re-raising ValueError when the
key is malformed. -/
def key_depth (key : String) : Except PyErr Int :=
  match parse_key key with
  | .ok parts => .ok ((parts.length : Int) - 1)
  | .error _ => .error .valueError

/-- First binding of a field name in a dict (Python dict lookup). -/
def lookupField : List (String × TreeV) → String → Option TreeV
  | [], _ => none
  | (nm, v) :: rest, k => if nm = k then some v else lookupField rest k

/-- One subscript access `node[part]`, with the exception kind Python
raises on each failure: a missing dict field or a non-string subscript on
a dict raises KeyError, an out-of-range index on a list or string raises
IndexError, a string subscript on a list, any subscript on a non-string
scalar and a string subscript on a string raise TypeError.  An in-range
integer index on a string scalar succeeds and yields a one-character
string. -/
def access (node : TreeV) (p : Part) : Except PyErr TreeV :=
  match node, p with
  | .vObj fields, .fld s =>
    match lookupField fields s with
    | some v => .ok v
    | none => .error .keyError
  | .vObj _, .idx _ => .error .keyError
  | .vSeq items, .idx n =>
    match items.get? n with
    | some v => .ok v
    | none => .error .indexError
  | .vSeq _, .fld _ => .error .typeError
  | .vStr s, .idx n =>
    match s.toList.get? n with
    | some c => .ok (.vStr (String.mk [c]))
    | none => .error .indexError
  | .vStr _, .fld _ => .error .typeError
  | _, _ => .error .typeError

/-- The loop of Search.get: successive subscript accesses, one per part. -/
def resolveSteps (node : TreeV) : List Part → Except PyErr TreeV
  | [] => .ok node
  | p :: rest =>
    match access node p with
    | .ok n2 => resolveSteps n2 rest
    | .error e => .error e

/-- p.toList is a prefix of k.toList (Python str.startswith). -/
def isPfxOf : List Char → List Char → Bool
  | [], _ => true
  | _ :: _, [] => false
  | a :: as, b :: bs => a = b && isPfxOf as bs

/-- startswith on strings. -/
def startsWithB (p k : String) : Bool := isPfxOf p.toList k.toList

/-- Python str.removeprefix: drop `p` from the front of `k` when `k`
starts with `p`, otherwise return `k` unchanged. -/
def dropPfxStr (p k : String) : String :=
  if startsWithB p k then String.mk (k.toList.drop p.toList.length) else k

/-- Substring containment check (Python `suffix in key`). -/
def containsSub : List Char → List Char → Bool
  | n, [] => n = []
  | n, h :: t => isPfxOf n (h :: t) || containsSub n t

/-- suffix occurs in key. -/
def occursB (needle hay : String) : Bool := containsSub needle.toList hay.toList

/-- suffix occurs as a contiguous substring of key, as a proposition. -/
def OccursIn (needle hay : String) : Prop := needle.toList <:+: hay.toList

/-- Has max_depth been supplied and reached (`max_depth is not None and
depth >= max_depth`)? -/
def mdReached (md : Option Int) (depth : Nat) : Bool :=
  match md with
  | some m => decide ((depth : Int) ≥ m)
  | none => false

mutual
/-- The recursive walk _visit(node, parent, depth) inside _flatten: an
atomic node yields nothing; a dict or list/tuple node yields, for every
child in order, the child's key (when the child is atomic or the depth
limit is reached) or the keys of the child's own walk. -/
def flattenVisit (t : TreeV) (parent : List Char) (d : Nat) (md : Option Int) :
    List (List Char) :=
  match t with
  | .vObj fields => flattenFields fields parent d md
  | .vSeq items => flattenItems items 0 parent d md
  | _ => []

/-- Walk of the fields of a dict node: new_key = f"{parent}.{key}". -/
def flattenFields (fs : List (String × TreeV)) (parent : List Char) (d : Nat)
    (md : Option Int) : List (List Char) :=
  match fs with
  | [] => []
  | (nm, c) :: rest =>
    (if atomic c || mdReached md d then [parent ++ '.' :: nm.toList]
     else flattenVisit c (parent ++ '.' :: nm.toList) (d + 1) md)
      ++ flattenFields rest parent d md

/-- Walk of the items of a list/tuple node: new_key = f"{parent}[{index}]". -/
def flattenItems (its : List TreeV) (i : Nat) (parent : List Char) (d : Nat)
    (md : Option Int) : List (List Char) :=
  match its with
  | [] => []
  | c :: rest =>
    (if atomic c || mdReached md d then [parent ++ '[' :: (digitsOf i ++ [']'])]
     else flattenVisit c (parent ++ '[' :: (digitsOf i ++ [']'])) (d + 1) md)
      ++ flattenItems rest (i + 1) parent d md
end

/-- _flatten(obj, max_depth): the walk from the root with an empty parent
key, followed by `strip(".")` on every produced key. -/
def flattenKeys (obj : TreeV) (md : Option Int) : List String :=
  (flattenVisit obj [] 0 md).map (fun k => String.mk (stripDotsL k))

/-- The Search object: the wrapped tree, the ordered key cache `_cache`
and the raw `_prefix` field (None or a string). -/
structure Search where
  obj : TreeV
  cache : List String
  pfx : Option String

/-- Search.__init__(obj, cache, prefix, max_depth): the cache is computed
by _flatten when not supplied, and the raw prefix is stored as given. -/
def Search.make (obj : TreeV) (cache : Option (List String))
    (pfx : Option String) (md : Option Int) : Search :=
  ⟨obj, match cache with | some c => c | none => flattenKeys obj md, pfx⟩

/-- The Search.prefix property: `self._prefix or ""`. -/
def Search.pfxStr (s : Search) : String := s.pfx.getD ""

/-- Search.get(key): parse the key and walk the held tree one part at a
time. -/
def Search.get (s : Search) (key : String) : Except PyErr TreeV :=
  match parse_key key with
  | .ok parts => resolveSteps s.obj parts
  | .error e => .error e

/-- Search.__getitem__(key): get, with KeyError and IndexError normalized
into the single "key not found" KeyError; other exception kinds
propagate unchanged. -/
def Search.getitem (s : Search) (key : String) : Except PyErr TreeV :=
  match s.get key with
  | .error .keyError => .error .keyError
  | .error .indexError => .error .keyError
  | r => r

/-- Search.find(suffix): same tree, cache filtered to the keys containing
`suffix` as a substring, prefix set to the public prefix property. -/
def Search.find (s : Search) (suffix : String) : Search :=
  ⟨s.obj, s.cache.filter (fun k => occursB suffix k), some s.pfxStr⟩

/-- Search.subsearch(prefix): resolve the prefix via get, keep the keys
that start with it, strip it (and then '.') from their front, and re-root
onto the resolved node. -/
def Search.subsearch (s : Search) (p : String) : Except PyErr Search :=
  match s.get p with
  | .ok node =>
    .ok ⟨node,
      (s.cache.filter (fun k => startsWithB p k)).map
        (fun k => stripDots (dropPfxStr p k)),
      some p⟩
  | .error e => .error e

/-- The list comprehension `[key for key in cache if pred(key_depth(key))]`:
a ValueError raised by key_depth propagates. -/
def depthFilter (pred : Int → Bool) : List String → Except PyErr (List String)
  | [] => .ok []
  | k :: rest =>
    match key_depth k with
    | .ok d =>
      match depthFilter pred rest with
      | .ok tail => .ok (if pred d then k :: tail else tail)
      | .error e => .error e
    | .error e => .error e

/-- Search.max_depth(depth): cache filtered to keys of depth at most
`depth`; same tree, public prefix. -/
def Search.max_depth (s : Search) (d : Int) : Except PyErr Search :=
  match depthFilter (fun x => decide (x ≤ d)) s.cache with
  | .ok c => .ok ⟨s.obj, c, some s.pfxStr⟩
  | .error e => .error e

/-- Search.fixed_depth(depth): cache filtered to keys of depth exactly
`depth`; same tree, public prefix. -/
def Search.fixed_depth (s : Search) (d : Int) : Except PyErr Search :=
  match depthFilter (fun x => decide (x = d)) s.cache with
  | .ok c => .ok ⟨s.obj, c, some s.pfxStr⟩
  | .error e => .error e

/-- Search.__eq__: `self._cache == other._cache and self._prefix ==
other._prefix` (the raw fields; the tree is not compared). -/
def Search.beq (a b : Search) : Bool :=
  a.cache == b.cache && a.pfx == b.pfx

/-- A plain key character: not a separator and not a bracket. -/
def plainChar (c : Char) : Bool := c ≠ '.' && c ≠ '[' && c ≠ ']'

/-- A field name that the key grammar renders losslessly: non-empty and
made of plain characters only. -/
def goodName (s : String) : Bool := !s.toList.isEmpty && s.toList.all plainChar

mutual
/-- Every object field name in the tree is a good name. -/
def namesOk : TreeV → Bool
  | .vObj fields => namesOkFields fields
  | .vSeq items => namesOkItems items
  | _ => true

def namesOkFields : List (String × TreeV) → Bool
  | [] => true
  | (nm, c) :: rest => goodName nm && namesOk c && namesOkFields rest

def namesOkItems : List TreeV → Bool
  | [] => true
  | c :: rest => namesOk c && namesOkItems rest
end

mutual
/-- Every object node of the tree has pairwise distinct field names (a
Python dict cannot hold two bindings of one key). -/
def nodupTree : TreeV → Bool
  | .vObj fields => (fields.map Prod.fst).Nodup && nodupFields fields
  | .vSeq items => nodupItems items
  | _ => true

def nodupFields : List (String × TreeV) → Bool
  | [] => true
  | (_, c) :: rest => nodupTree c && nodupFields rest

def nodupItems : List TreeV → Bool
  | [] => true
  | c :: rest => nodupTree c && nodupItems rest
end

mutual
/-- The step paths of the scalar leaves of a tree, in the order of the
depth-first walk: an atomic child contributes its one-step path, a
container child contributes its own leaf paths with the access step for
that child prepended. -/
def leafPaths : TreeV → List (List Part)
  | .vObj fields => leafPathsFields fields
  | .vSeq items => leafPathsItems items 0
  | _ => []

def leafPathsFields : List (String × TreeV) → List (List Part)
  | [] => []
  | (nm, c) :: rest =>
    (if atomic c then [[.fld nm]] else (leafPaths c).map (.fld nm :: ·))
      ++ leafPathsFields rest

def leafPathsItems : List TreeV → Nat → List (List Part)
  | [], _ => []
  | c :: rest, i =>
    (if atomic c then [[.idx i]] else (leafPaths c).map (.idx i :: ·))
      ++ leafPathsItems rest (i + 1)
end

mutual
/-- The scalar leaf values of a tree, in the order of the depth-first
walk. -/
def leafVals : TreeV → List TreeV
  | .vObj fields => leafValsFields fields
  | .vSeq items => leafValsItems items
  | _ => []

def leafValsFields : List (String × TreeV) → List TreeV
  | [] => []
  | (_, c) :: rest =>
    (if atomic c then [c] else leafVals c) ++ leafValsFields rest

def leafValsItems : List TreeV → List TreeV
  | [] => []
  | c :: rest =>
    (if atomic c then [c] else leafVals c) ++ leafValsItems rest
end

/-- Character rendering of a step path exactly as the flattening walk
builds keys: ".name" per field step, "[index]" per index step. -/
def renderParts : List Part → List Char
  | [] => []
  | .fld s :: rest => '.' :: (s.toList ++ renderParts rest)
  | .idx n :: rest => '[' :: (digitsOf n ++ ']' :: renderParts rest)

/- ------------------------------------------------------------------ -/
/- Parser lemmas -/
/- ------------------------------------------------------------------ -/

theorem flushSk_pre (sk : List Char) (pre parts : List Part) :
    flushSk sk (pre ++ parts) = pre ++ flushSk sk parts := by
  unfold flushSk
  split <;> simp

theorem runP_append (xs ys : List Char) (st : PState) :
    runP (xs ++ ys) st =
      match runP xs st with
      | .ok st2 => runP ys st2
      | .error e => .error e := by
  induction xs generalizing st with
  | nil => simp [runP]
  | cons c cs ih =>
    simp only [List.cons_append, runP]
    cases stepP st c with
    | ok st2 => exact ih st2
    | error e => rfl

theorem stepP_error (st : PState) (c : Char) (e : PyErr)
    (h : stepP st c = .error e) : e = .valueError := by
  unfold stepP at h
  split at h
  · exact absurd h (by simp)
  · split at h
    · exact absurd h (by simp)
    · split at h
      · split at h
        · simpa using h.symm
        · exact absurd h (by simp)
      · split at h
        · split at h
          · exact absurd h (by simp)
          · simpa using h.symm
        · exact absurd h (by simp)

theorem runP_error (cs : List Char) (st : PState) (e : PyErr)
    (h : runP cs st = .error e) : e = .valueError := by
  induction cs generalizing st with
  | nil => simp [runP] at h
  | cons c rest ih =>
    simp only [runP] at h
    cases hs : stepP st c with
    | ok st2 => rw [hs] at h; exact ih st2 h
    | error e2 =>
      rw [hs] at h
      cases h
      exact stepP_error st c e hs

theorem parseList_error (cs : List Char) (e : PyErr)
    (h : parseList cs = .error e) : e = .valueError := by
  unfold parseList at h
  cases hr : runP cs initSt with
  | ok st => rw [hr] at h; exact absurd h (by simp)
  | error e2 =>
    rw [hr] at h
    cases h
    exact runP_error cs initSt e hr

/-- Adding already-collected parts in front of the state's parts list
commutes with the loop: the loop only ever appends to `parts`. -/
def withPre (pre : List Part) (st : PState) : PState :=
  ⟨st.sk, st.ik, st.dig, pre ++ st.parts⟩

theorem stepP_withPre (pre : List Part) (st : PState) (c : Char) :
    stepP (withPre pre st) c = (stepP st c).map (withPre pre) := by
  unfold stepP withPre
  simp only
  split
  · simp [Except.map, flushSk_pre]
  · split
    · simp [Except.map, flushSk_pre]
    · split
      · split
        · simp [Except.map]
        · simp [Except.map, List.append_assoc]
      · split
        · split
          · simp [Except.map]
          · simp [Except.map]
        · simp [Except.map]

theorem runP_withPre (cs : List Char) (pre : List Part) (st : PState) :
    runP cs (withPre pre st) = (runP cs st).map (withPre pre) := by
  induction cs generalizing st with
  | nil => simp [runP, Except.map]
  | cons c rest ih =>
    simp only [runP, stepP_withPre]
    cases stepP st c with
    | ok st2 => simpa [Except.map] using ih st2
    | error e => simp [Except.map]

/-- State invariant of the loop from the initial state: whenever the digit
flag is off, the index buffer is empty. -/
def ikInv (st : PState) : Prop := st.dig = false → st.ik = []

theorem stepP_ikInv (st : PState) (c : Char) (st2 : PState)
    (h : stepP st c = .ok st2) (hi : ikInv st) : ikInv st2 := by
  unfold stepP at h
  unfold ikInv at hi ⊢
  split at h
  · cases h; exact fun hd => hi hd
  · split at h
    · cases h; simp
    · split at h
      · split at h
        · cases h
        · cases h; simp
      · split at h
        · split at h
          · cases h; simp_all
          · cases h
        · cases h; exact fun hd => hi hd

theorem runP_ikInv (cs : List Char) (st st2 : PState)
    (h : runP cs st = .ok st2) (hi : ikInv st) : ikInv st2 := by
  induction cs generalizing st with
  | nil => simp [runP] at h; cases h; exact hi
  | cons c rest ih =>
    simp only [runP] at h
    cases hs : stepP st c with
    | ok stm =>
      rw [hs] at h
      exact ih stm h (stepP_ikInv st c stm hs hi)
    | error e => rw [hs] at h; cases h

theorem stepP_initSt_dot : stepP initSt '.' = .ok initSt := by
  simp [stepP, initSt, flushSk]

theorem parseList_cons_dot (cs : List Char) :
    parseList ('.' :: cs) = parseList cs := by
  unfold parseList
  simp only [runP, stepP_initSt_dot]

theorem parseList_append_dot (cs : List Char) :
    parseList (cs ++ ['.']) = parseList cs := by
  unfold parseList
  rw [runP_append]
  cases hr : runP cs initSt with
  | ok st =>
    have hstep : stepP st '.' = .ok ⟨[], st.ik, st.dig, flushSk st.sk st.parts⟩ := by
      simp [stepP]
    simp [runP, hstep, flushSk]
  | error e => rfl

theorem parseList_dropWhile_dot (cs : List Char) :
    parseList (cs.dropWhile (· = '.')) = parseList cs := by
  induction cs with
  | nil => rfl
  | cons c rest ih =>
    by_cases h : c = '.'
    · subst h
      rw [List.dropWhile_cons_of_pos (by simp), ih, parseList_cons_dot]
    · rw [List.dropWhile_cons_of_neg (by simp [h])]

theorem parseList_rev_dropWhile (r : List Char) :
    parseList ((r.dropWhile (· = '.')).reverse) = parseList r.reverse := by
  induction r with
  | nil => rfl
  | cons c rest ih =>
    by_cases h : c = '.'
    · subst h
      rw [List.dropWhile_cons_of_pos (by simp), List.reverse_cons,
        parseList_append_dot]
      exact ih
    · rw [List.dropWhile_cons_of_neg (by simp [h])]

theorem parseList_dropTrailDots (l : List Char) :
    parseList (dropTrailDots l) = parseList l := by
  unfold dropTrailDots
  have := parseList_rev_dropWhile l.reverse
  rwa [List.reverse_reverse] at this

/-- Stripping '.' characters from both ends of a key never changes its
parse. -/
theorem parseList_stripDotsL (l : List Char) :
    parseList (stripDotsL l) = parseList l := by
  unfold stripDotsL
  rw [parseList_dropTrailDots, parseList_dropWhile_dot]

theorem isDig_not_special (c : Char) (h : isDig c = true) :
    c ≠ '.' ∧ c ≠ '[' ∧ c ≠ ']' := by
  refine ⟨?_, ?_, ?_⟩ <;> intro hEq <;> subst hEq <;> simp [isDig] at h

theorem runP_plain (cs : List Char) (h : cs.all plainChar)
    (sk ik : List Char) (parts : List Part) :
    runP cs ⟨sk, ik, false, parts⟩ = .ok ⟨sk ++ cs, ik, false, parts⟩ := by
  induction cs generalizing sk with
  | nil => simp [runP]
  | cons c rest ih =>
    simp only [List.all_cons, Bool.and_eq_true] at h
    obtain ⟨hc, hrest⟩ := h
    have h1 : ¬ c = '.' := fun hEq => by subst hEq; simp [plainChar] at hc
    have h2 : ¬ c = '[' := fun hEq => by subst hEq; simp [plainChar] at hc
    have h3 : ¬ c = ']' := fun hEq => by subst hEq; simp [plainChar] at hc
    simp only [runP, stepP, if_neg h1, if_neg h2, if_neg h3]
    simpa using ih hrest (sk ++ [c])

theorem runP_digits (ds : List Char) (h : ds.all isDig)
    (sk ik : List Char) (parts : List Part) :
    runP ds ⟨sk, ik, true, parts⟩ = .ok ⟨sk, ik ++ ds, true, parts⟩ := by
  induction ds generalizing ik with
  | nil => simp [runP]
  | cons c rest ih =>
    simp only [List.all_cons, Bool.and_eq_true] at h
    obtain ⟨hc, hrest⟩ := h
    obtain ⟨h1, h2, h3⟩ := isDig_not_special c hc
    simp only [runP, stepP, if_neg h1, if_neg h2, if_neg h3, if_pos rfl,
      if_pos hc]
    simpa using ih hrest (ik ++ [c])

theorem isDig_digitChar10 (d : Nat) : isDig (digitChar10 d) = true := by
  unfold digitChar10
  split <;> decide

theorem digitsOfAux_stable (n : Nat) : ∀ f1 f2, n < f1 → n < f2 →
    digitsOfAux f1 n = digitsOfAux f2 n := by
  induction n using Nat.strong_induction_on with
  | _ n ih =>
    intro f1 f2 h1 h2
    cases f1 with
    | zero => omega
    | succ g1 =>
      cases f2 with
      | zero => omega
      | succ g2 =>
        simp only [digitsOfAux]
        split
        · rfl
        · rename_i h10
          have hd : n / 10 < n := Nat.div_lt_self (by omega) (by omega)
          rw [ih (n / 10) hd g1 g2 (by omega) (by omega)]

/-- One-step unfolding of the decimal rendering. -/
theorem digitsOf_unfold (n : Nat) : digitsOf n =
    if n < 10 then [digitChar10 n]
    else digitsOf (n / 10) ++ [digitChar10 (n % 10)] := by
  show digitsOfAux (n + 1) n = _
  simp only [digitsOfAux]
  split
  · rfl
  · rename_i h10
    have hd : n / 10 < n := Nat.div_lt_self (by omega) (by omega)
    rw [digitsOfAux_stable (n / 10) n (n / 10 + 1) (by omega) (by omega)]
    rfl

theorem digitsOf_all_isDig (n : Nat) : (digitsOf n).all isDig = true := by
  induction n using Nat.strong_induction_on with
  | _ n ih =>
    rw [digitsOf_unfold]
    split
    · simp [isDig_digitChar10]
    · rename_i h
      rw [List.all_append, Bool.and_eq_true]
      refine And.intro (ih (n / 10) (Nat.div_lt_self (by omega) (by omega))) ?_
      simp [isDig_digitChar10]

theorem digitsOf_ne_nil (n : Nat) : digitsOf n ≠ [] := by
  rw [digitsOf_unfold]
  split <;> simp

theorem toNat_digitChar10 (d : Nat) (h : d < 10) :
    (digitChar10 d).toNat = 48 + d := by
  interval_cases d <;> decide

theorem natOfDigits_append_one (l : List Char) (c : Char) :
    natOfDigits (l ++ [c]) = natOfDigits l * 10 + (c.toNat - 48) := by
  unfold natOfDigits
  rw [List.foldl_append]
  rfl

theorem natOfDigits_digitsOf (n : Nat) : natOfDigits (digitsOf n) = n := by
  induction n using Nat.strong_induction_on with
  | _ n ih =>
    rw [digitsOf_unfold]
    split
    · rename_i h
      show natOfDigits ([] ++ [digitChar10 n]) = n
      rw [natOfDigits_append_one, toNat_digitChar10 n h]
      simp [natOfDigits]
    · rename_i h
      rw [natOfDigits_append_one, ih (n / 10) (Nat.div_lt_self (by omega) (by omega)),
        toNat_digitChar10 (n % 10) (by omega)]
      omega

/-- Paths whose field names the key grammar renders losslessly. -/
def goodParts (pa : List Part) : Bool :=
  pa.all (fun p => match p with | .fld s => goodName s | .idx _ => true)

theorem strMk_toList (s : String) : String.mk s.toList = s := by
  cases s
  rfl

theorem goodName_spec (s : String) (h : goodName s = true) :
    s.toList ≠ [] ∧ s.toList.all plainChar = true := by
  unfold goodName at h
  rw [Bool.and_eq_true] at h
  refine ⟨?_, h.2⟩
  have := h.1
  simp only [Bool.not_eq_true'] at this
  exact fun hn => by rw [hn] at this; simp at this

/-- Running the loop over the rendering of a good path, from a state with
an empty index buffer and the digit flag off, succeeds and appends exactly
the path's parts. -/
theorem runP_renderParts : ∀ (pa : List Part), goodParts pa = true →
    ∀ (sk : List Char), sk.all plainChar = true → ∀ (parts : List Part),
    ∃ st : PState, runP (renderParts pa) ⟨sk, [], false, parts⟩ = .ok st ∧
      flushSk st.sk st.parts = flushSk sk parts ++ pa := by
  intro pa
  induction pa with
  | nil =>
    intro _ sk hsk parts
    exact ⟨⟨sk, [], false, parts⟩, by simp [runP], by simp⟩
  | cons p rest ih =>
    intro hg sk hsk parts
    have hg2 : goodParts rest = true := by
      unfold goodParts at hg ⊢
      rw [List.all_cons, Bool.and_eq_true] at hg
      exact hg.2
    cases p with
    | fld s =>
      have hgs : goodName s = true := by
        unfold goodParts at hg
        rw [List.all_cons, Bool.and_eq_true] at hg
        exact hg.1
      obtain ⟨hne, hplain⟩ := goodName_spec s hgs
      have hstep : stepP ⟨sk, [], false, parts⟩ '.' =
          .ok ⟨[], [], false, flushSk sk parts⟩ := by
        simp [stepP]
      show ∃ st, runP ('.' :: (s.toList ++ renderParts rest)) _ = .ok st ∧ _
      simp only [runP, hstep]
      rw [runP_append, runP_plain s.toList hplain [] [] (flushSk sk parts)]
      simp only [List.nil_append]
      obtain ⟨st, hrun, hflush⟩ :=
        ih hg2 s.toList hplain (flushSk sk parts)
      refine ⟨st, hrun, ?_⟩
      rw [hflush]
      unfold flushSk
      rw [if_neg hne, strMk_toList]
      simp
    | idx i =>
      have hstep : stepP ⟨sk, [], false, parts⟩ '[' =
          .ok ⟨[], [], true, flushSk sk parts⟩ := by
        simp [stepP]
      show ∃ st, runP ('[' :: (digitsOf i ++ ']' :: renderParts rest)) _ = .ok st ∧ _
      simp only [runP, hstep]
      rw [runP_append,
        runP_digits (digitsOf i) (digitsOf_all_isDig i) [] [] (flushSk sk parts)]
      simp only [List.nil_append]
      have hstep2 : stepP ⟨[], digitsOf i, true, flushSk sk parts⟩ ']' =
          .ok ⟨[], [], false, flushSk sk parts ++ [.idx i]⟩ := by
        simp [stepP, digitsOf_ne_nil i, natOfDigits_digitsOf i]
      simp only [runP, hstep2]
      obtain ⟨st, hrun, hflush⟩ :=
        ih hg2 [] (by simp) (flushSk sk parts ++ [.idx i])
      refine ⟨st, hrun, ?_⟩
      rw [hflush]
      unfold flushSk
      simp

/-- The parse of a rendered good path recovers exactly the path. -/
theorem parseList_renderParts (pa : List Part) (h : goodParts pa = true) :
    parseList (renderParts pa) = .ok pa := by
  obtain ⟨st, hrun, hflush⟩ :=
    runP_renderParts pa h [] (by simp) []
  have hinit : initSt = ⟨[], [], false, []⟩ := rfl
  unfold parseList
  rw [hinit, hrun]
  show Except.ok (flushSk st.sk st.parts) = Except.ok pa
  rw [hflush]
  simp [flushSk]

/-- The parse of a rendered good path after the final strip("."). -/
theorem parseList_strip_render (pa : List Part) (h : goodParts pa = true) :
    parseList (stripDotsL (renderParts pa)) = .ok pa := by
  rw [parseList_stripDotsL]
  exact parseList_renderParts pa h

/-- On good paths assemble_key's character rendering coincides with the
flattening walk's. -/
theorem asmChars_eq_render (pa : List Part) (h : goodParts pa = true) :
    asmChars pa = renderParts pa := by
  induction pa with
  | nil => rfl
  | cons p rest ih =>
    have hg2 : goodParts rest = true := by
      unfold goodParts at h ⊢
      rw [List.all_cons, Bool.and_eq_true] at h
      exact h.2
    cases p with
    | fld s =>
      have hgs : goodName s = true := by
        unfold goodParts at h
        rw [List.all_cons, Bool.and_eq_true] at h
        exact h.1
      obtain ⟨hne, hplain⟩ := goodName_spec s hgs
      have hbw : bracketWrapped s.toList = false := by
        unfold bracketWrapped
        cases hsl : s.toList with
        | nil => exact absurd hsl hne
        | cons c cs =>
          have hc : plainChar c = true := by
            have := hplain
            rw [hsl, List.all_cons, Bool.and_eq_true] at this
            exact this.1
          have : ¬ c = '[' := fun hEq => by subst hEq; simp [plainChar] at hc
          simp [this]
      show (if bracketWrapped s.toList then s.toList else '.' :: s.toList)
          ++ asmChars rest = _
      rw [hbw]
      simp only [if_neg (by simp : ¬ (false = true))]
      rw [ih hg2]
      rfl
    | idx i =>
      show '[' :: (digitsOf i ++ ']' :: asmChars rest) = _
      rw [ih hg2]
      rfl

/- ------------------------------------------------------------------ -/
/- Characterization of the flattening walk without a depth limit -/
/- ------------------------------------------------------------------ -/

mutual
theorem flattenVisit_none : ∀ (t : TreeV) (parent : List Char) (d : Nat),
    flattenVisit t parent d none =
      (leafPaths t).map (fun pa => parent ++ renderParts pa)
  | .vObj fields, parent, d => by
    simp only [flattenVisit, leafPaths]
    exact flattenFields_none fields parent d
  | .vSeq items, parent, d => by
    simp only [flattenVisit, leafPaths]
    exact flattenItems_none items 0 parent d
  | .vInt _, _, _ => by simp [flattenVisit, leafPaths]
  | .vFloat _, _, _ => by simp [flattenVisit, leafPaths]
  | .vBool _, _, _ => by simp [flattenVisit, leafPaths]
  | .vStr _, _, _ => by simp [flattenVisit, leafPaths]
  | .vNone, _, _ => by simp [flattenVisit, leafPaths]

theorem flattenFields_none : ∀ (fs : List (String × TreeV))
    (parent : List Char) (d : Nat),
    flattenFields fs parent d none =
      (leafPathsFields fs).map (fun pa => parent ++ renderParts pa)
  | [], _, _ => by simp [flattenFields, leafPathsFields]
  | (nm, c) :: rest, parent, d => by
    simp only [flattenFields, leafPathsFields]
    rw [flattenFields_none rest parent d, List.map_append]
    by_cases ha : atomic c
    · simp [ha, mdReached, renderParts]
    · rw [if_neg (by simp [ha, mdReached]), if_neg (by simp [ha])]
      rw [flattenVisit_none c (parent ++ '.' :: nm.toList) (d + 1)]
      rw [List.map_map]
      congr 1
      apply List.map_congr_left
      intro pa _
      simp [renderParts]

theorem flattenItems_none : ∀ (its : List TreeV) (i : Nat)
    (parent : List Char) (d : Nat),
    flattenItems its i parent d none =
      (leafPathsItems its i).map (fun pa => parent ++ renderParts pa)
  | [], _, _, _ => by simp [flattenItems, leafPathsItems]
  | c :: rest, i, parent, d => by
    simp only [flattenItems, leafPathsItems]
    rw [flattenItems_none rest (i + 1) parent d, List.map_append]
    by_cases ha : atomic c
    · simp [ha, mdReached, renderParts]
    · rw [if_neg (by simp [ha, mdReached]), if_neg (by simp [ha])]
      rw [flattenVisit_none c (parent ++ '[' :: (digitsOf i ++ [']'])) (d + 1)]
      rw [List.map_map]
      congr 1
      apply List.map_congr_left
      intro pa _
      simp [renderParts]
end

/-- The cache built by _flatten with no depth limit is exactly the
rendered leaf paths, each stripped of '.' at both ends. -/
theorem flattenKeys_none_eq (t : TreeV) :
    flattenKeys t none =
      (leafPaths t).map (fun pa => String.mk (stripDotsL (renderParts pa))) := by
  unfold flattenKeys
  rw [flattenVisit_none t [] 0, List.map_map]
  congr 1

mutual
theorem leafPaths_good : ∀ (t : TreeV), namesOk t = true →
    ∀ pa ∈ leafPaths t, goodParts pa = true
  | .vObj fields, h, pa, hpa => by
    simp only [leafPaths] at hpa
    exact leafPathsFields_good fields (by simpa [namesOk] using h) pa hpa
  | .vSeq items, h, pa, hpa => by
    simp only [leafPaths] at hpa
    exact leafPathsItems_good items 0 (by simpa [namesOk] using h) pa hpa
  | .vInt _, _, pa, hpa => by simp [leafPaths] at hpa
  | .vFloat _, _, pa, hpa => by simp [leafPaths] at hpa
  | .vBool _, _, pa, hpa => by simp [leafPaths] at hpa
  | .vStr _, _, pa, hpa => by simp [leafPaths] at hpa
  | .vNone, _, pa, hpa => by simp [leafPaths] at hpa

theorem leafPathsFields_good : ∀ (fs : List (String × TreeV)),
    namesOkFields fs = true → ∀ pa ∈ leafPathsFields fs, goodParts pa = true
  | [], _, pa, hpa => by simp [leafPathsFields] at hpa
  | (nm, c) :: rest, h, pa, hpa => by
    simp only [namesOkFields, Bool.and_eq_true] at h
    obtain ⟨⟨hnm, hc⟩, hrest⟩ := h
    simp only [leafPathsFields, List.mem_append] at hpa
    cases hpa with
    | inl hin =>
      by_cases ha : atomic c
      · rw [if_pos ha] at hin
        simp only [List.mem_singleton] at hin
        subst hin
        simp [goodParts, hnm]
      · rw [if_neg ha] at hin
        obtain ⟨pa2, hpa2, hEq⟩ := List.mem_map.mp hin
        subst hEq
        have := leafPaths_good c hc pa2 hpa2
        simp [goodParts, hnm]
        simpa [goodParts] using this
    | inr hin => exact leafPathsFields_good rest hrest pa hin

theorem leafPathsItems_good : ∀ (its : List TreeV) (i : Nat),
    namesOkItems its = true → ∀ pa ∈ leafPathsItems its i, goodParts pa = true
  | [], _, _, pa, hpa => by simp [leafPathsItems] at hpa
  | c :: rest, i, h, pa, hpa => by
    simp only [namesOkItems, Bool.and_eq_true] at h
    obtain ⟨hc, hrest⟩ := h
    simp only [leafPathsItems, List.mem_append] at hpa
    cases hpa with
    | inl hin =>
      by_cases ha : atomic c
      · rw [if_pos ha] at hin
        simp only [List.mem_singleton] at hin
        subst hin
        simp [goodParts]
      · rw [if_neg ha] at hin
        obtain ⟨pa2, hpa2, hEq⟩ := List.mem_map.mp hin
        subst hEq
        have := leafPaths_good c hc pa2 hpa2
        simp [goodParts]
        simpa [goodParts] using this
    | inr hin => exact leafPathsItems_good rest (i + 1) hrest pa hin
end

/- ------------------------------------------------------------------ -/
/- Leaf paths resolve to leaf values -/
/- ------------------------------------------------------------------ -/

mutual
theorem resolveLeafPaths : ∀ (t : TreeV), nodupTree t = true →
    (leafPaths t).map (fun pa => resolveSteps t pa) = (leafVals t).map Except.ok
  | .vObj fields, h => by
    have hsplit : (fields.map Prod.fst).Nodup ∧ nodupFields fields = true := by
      have h2 : ((fields.map Prod.fst).Nodup && nodupFields fields) = true := by
        simpa [nodupTree] using h
      rw [Bool.and_eq_true, decide_eq_true_eq] at h2
      exact h2
    simp only [leafPaths, leafVals]
    exact resolveLeafFieldsAux fields fields (fun nm _ => rfl) hsplit.1 hsplit.2
  | .vSeq items, h => by
    simp only [leafPaths, leafVals]
    exact resolveLeafItemsAux items 0 items (fun j _ => by simp)
      (by simpa [nodupTree] using h)
  | .vInt _, _ => by simp [leafPaths, leafVals]
  | .vFloat _, _ => by simp [leafPaths, leafVals]
  | .vBool _, _ => by simp [leafPaths, leafVals]
  | .vStr _, _ => by simp [leafPaths, leafVals]
  | .vNone, _ => by simp [leafPaths, leafVals]

theorem resolveLeafFieldsAux : ∀ (fs full : List (String × TreeV)),
    (∀ nm, nm ∈ fs.map Prod.fst → lookupField full nm = lookupField fs nm) →
    (fs.map Prod.fst).Nodup → nodupFields fs = true →
    (leafPathsFields fs).map (fun pa => resolveSteps (.vObj full) pa) =
      (leafValsFields fs).map Except.ok
  | [], _, _, _, _ => by simp [leafPathsFields, leafValsFields]
  | (nm, c) :: rest, full, hagree, hnodup, hchild => by
    have hlook : lookupField full nm = some c := by
      rw [hagree nm (by simp)]
      simp [lookupField]
    have hchild2 : nodupTree c = true ∧ nodupFields rest = true := by
      have h2 : (nodupTree c && nodupFields rest) = true := by
        simpa [nodupFields] using hchild
      rw [Bool.and_eq_true] at h2
      exact h2
    have hnotin : nm ∉ rest.map Prod.fst := by
      have := hnodup
      rw [List.map_cons, List.nodup_cons] at this
      exact this.1
    have hagree2 : ∀ nm2, nm2 ∈ rest.map Prod.fst →
        lookupField full nm2 = lookupField rest nm2 := by
      intro nm2 hmem
      rw [hagree nm2 (by simp [hmem])]
      have hne : ¬ nm = nm2 := fun hEq => hnotin (hEq ▸ hmem)
      simp [lookupField, hne]
    have htail := resolveLeafFieldsAux rest full hagree2
      (by rw [List.map_cons, List.nodup_cons] at hnodup; exact hnodup.2) hchild2.2
    simp only [leafPathsFields, leafValsFields, List.map_append]
    rw [htail]
    congr 1
    by_cases ha : atomic c
    · rw [if_pos ha, if_pos ha]
      simp [resolveSteps, access, hlook]
    · rw [if_neg ha, if_neg ha, List.map_map]
      have hpoint : ∀ pa2 ∈ leafPaths c,
          resolveSteps (.vObj full) (.fld nm :: pa2) = resolveSteps c pa2 := by
        intro pa2 _
        simp [resolveSteps, access, hlook]
      calc (leafPaths c).map ((fun pa => resolveSteps (.vObj full) pa) ∘
              (.fld nm :: ·))
          = (leafPaths c).map (fun pa2 => resolveSteps c pa2) :=
            List.map_congr_left hpoint
        _ = (leafVals c).map Except.ok := resolveLeafPaths c hchild2.1

theorem resolveLeafItemsAux : ∀ (its : List TreeV) (i : Nat) (full : List TreeV),
    (∀ j, j < its.length → full.get? (i + j) = its.get? j) →
    nodupItems its = true →
    (leafPathsItems its i).map (fun pa => resolveSteps (.vSeq full) pa) =
      (leafValsItems its).map Except.ok
  | [], _, _, _, _ => by simp [leafPathsItems, leafValsItems]
  | c :: rest, i, full, hagree, hchild => by
    have hlook : full[i]? = some c := by
      have := hagree 0 (by simp)
      simpa [List.get?_eq_getElem?] using this
    have hchild2 : nodupTree c = true ∧ nodupItems rest = true := by
      have h2 : (nodupTree c && nodupItems rest) = true := by
        simpa [nodupItems] using hchild
      rw [Bool.and_eq_true] at h2
      exact h2
    have hagree2 : ∀ j, j < rest.length → full.get? (i + 1 + j) = rest.get? j := by
      intro j hj
      have := hagree (j + 1) (by simp; omega)
      have harith : i + (j + 1) = i + 1 + j := by omega
      rw [harith] at this
      simpa using this
    have htail := resolveLeafItemsAux rest (i + 1) full hagree2 hchild2.2
    simp only [leafPathsItems, leafValsItems, List.map_append]
    rw [htail]
    congr 1
    by_cases ha : atomic c
    · rw [if_pos ha, if_pos ha]
      simp [resolveSteps, access, hlook]
    · rw [if_neg ha, if_neg ha, List.map_map]
      have hpoint : ∀ pa2 ∈ leafPaths c,
          resolveSteps (.vSeq full) (.idx i :: pa2) = resolveSteps c pa2 := by
        intro pa2 _
        simp [resolveSteps, access, hlook]
      calc (leafPaths c).map ((fun pa => resolveSteps (.vSeq full) pa) ∘
              (.idx i :: ·))
          = (leafPaths c).map (fun pa2 => resolveSteps c pa2) :=
            List.map_congr_left hpoint
        _ = (leafVals c).map Except.ok := resolveLeafPaths c hchild2.1
end

/- ------------------------------------------------------------------ -/
/- Decomposition of get and parse over a prefix -/
/- ------------------------------------------------------------------ -/

theorem resolveSteps_append (t : TreeV) (a b : List Part) :
    resolveSteps t (a ++ b) =
      match resolveSteps t a with
      | .ok n => resolveSteps n b
      | .error e => .error e := by
  induction a generalizing t with
  | nil => simp [resolveSteps]
  | cons p rest ih =>
    simp only [List.cons_append, resolveSteps]
    cases access t p with
    | ok n2 => exact ih n2
    | error e => rfl

theorem isPfxOf_append_self (p r : List Char) : isPfxOf p (p ++ r) = true := by
  induction p with
  | nil => rfl
  | cons c cs ih => simp [isPfxOf, ih]

/-- When the parse of `p` ends with the digit flag off, parsing `p ++ rem`
for a remainder that is empty or starts at a '.' or '[' boundary yields
the parts of `p` followed by the parts of `rem`. -/
theorem parseList_decomp (p rem : List Char) (stP : PState)
    (hrun : runP p initSt = .ok stP) (hdig : stP.dig = false)
    (hbound : rem = [] ∨ rem.head? = some '.' ∨ rem.head? = some '[') :
    parseList (p ++ rem) =
      (parseList rem).map (fun q => flushSk stP.sk stP.parts ++ q) := by
  have hik : stP.ik = [] := runP_ikInv p initSt stP hrun (fun _ => rfl) hdig
  rcases hbound with hnil | hhead
  · subst hnil
    have hL : parseList (p ++ ([] : List Char)) =
        .ok (flushSk stP.sk stP.parts) := by
      rw [List.append_nil]
      unfold parseList
      rw [hrun]
    have hR : parseList ([] : List Char) = .ok [] := rfl
    rw [hL, hR]
    simp [Except.map]
  · obtain ⟨c, r, hcr, hc⟩ : ∃ c r, rem = c :: r ∧ (c = '.' ∨ c = '[') := by
      cases rem with
      | nil => simp at hhead
      | cons c r =>
        refine ⟨c, r, rfl, ?_⟩
        rcases hhead with h1 | h2
        · exact Or.inl (by simpa using h1)
        · exact Or.inr (by simpa using h2)
    subst hcr
    have hstep : stepP stP c =
        (stepP initSt c).map (withPre (flushSk stP.sk stP.parts)) := by
      rcases hc with h | h <;> subst h <;>
        simp [stepP, initSt, withPre, hdig, hik, flushSk, Except.map]
    unfold parseList
    rw [runP_append, hrun]
    simp only [runP, hstep]
    cases hs0 : stepP initSt c with
    | error e => simp [Except.map]
    | ok st0 =>
      simp only [Except.map]
      rw [runP_withPre r (flushSk stP.sk stP.parts) st0]
      cases runP r st0 with
      | error e => simp [Except.map]
      | ok st2 => simp [Except.map, withPre, flushSk_pre]

/- ------------------------------------------------------------------ -/
/- No empty field step is ever emitted -/
/- ------------------------------------------------------------------ -/

/-- No field part of the list has an empty name. -/
def noEmptyFld (parts : List Part) : Prop := ∀ s, Part.fld s ∈ parts → s ≠ ""

theorem flushSk_noEmpty (sk : List Char) (parts : List Part)
    (h : noEmptyFld parts) : noEmptyFld (flushSk sk parts) := by
  unfold flushSk
  split
  · exact h
  · rename_i hne
    intro s hs
    rw [List.mem_append] at hs
    cases hs with
    | inl h1 => exact h s h1
    | inr h2 =>
      have h3 : s = String.mk sk := by simpa using h2
      subst h3
      intro hEq
      apply hne
      simpa using congrArg String.data hEq

theorem stepP_noEmpty (st : PState) (c : Char) (st2 : PState)
    (h : stepP st c = .ok st2) (hp : noEmptyFld st.parts) :
    noEmptyFld st2.parts := by
  unfold stepP at h
  split at h
  · cases h; exact flushSk_noEmpty st.sk st.parts hp
  · split at h
    · cases h; exact flushSk_noEmpty st.sk st.parts hp
    · split at h
      · split at h
        · cases h
        · cases h
          intro s hs
          rw [List.mem_append] at hs
          cases hs with
          | inl h1 => exact hp s h1
          | inr h2 => simp at h2
      · split at h
        · split at h
          · cases h; exact hp
          · cases h
        · cases h; exact hp

theorem runP_noEmpty (cs : List Char) (st st2 : PState)
    (h : runP cs st = .ok st2) (hp : noEmptyFld st.parts) :
    noEmptyFld st2.parts := by
  induction cs generalizing st with
  | nil => simp [runP] at h; cases h; exact hp
  | cons c rest ih =>
    simp only [runP] at h
    cases hs : stepP st c with
    | ok stm =>
      rw [hs] at h
      exact ih stm h (stepP_noEmpty st c stm hs hp)
    | error e => rw [hs] at h; cases h

theorem parseList_noEmpty (cs : List Char) (parts : List Part)
    (h : parseList cs = .ok parts) : noEmptyFld parts := by
  unfold parseList at h
  cases hr : runP cs initSt with
  | ok st =>
    rw [hr] at h
    have hst : noEmptyFld st.parts :=
      runP_noEmpty cs initSt st hr (fun s hs => by simp [initSt] at hs)
    cases h
    exact flushSk_noEmpty st.sk st.parts hst
  | error e => rw [hr] at h; cases h

/- ------------------------------------------------------------------ -/
/- Substring and prefix checks agree with their propositional forms -/
/- ------------------------------------------------------------------ -/

theorem isPfxOf_iff : ∀ (p l : List Char), isPfxOf p l = true ↔ p <+: l
  | [], l => by simp [isPfxOf]
  | a :: as, [] => by simp [isPfxOf]
  | a :: as, b :: bs => by
    simp only [isPfxOf, Bool.and_eq_true, decide_eq_true_eq,
      List.cons_prefix_cons]
    constructor
    · rintro ⟨h1, h2⟩
      exact ⟨h1, (isPfxOf_iff as bs).mp h2⟩
    · rintro ⟨h1, h2⟩
      exact ⟨h1, (isPfxOf_iff as bs).mpr h2⟩

theorem containsSub_iff : ∀ (n h : List Char), containsSub n h = true ↔ n <:+: h
  | n, [] => by
    simp [containsSub, List.infix_nil]
  | n, c :: t => by
    simp only [containsSub, Bool.or_eq_true]
    rw [List.infix_cons_iff]
    constructor
    · rintro (h1 | h2)
      · exact Or.inl ((isPfxOf_iff n (c :: t)).mp h1)
      · exact Or.inr ((containsSub_iff n t).mp h2)
    · rintro (h1 | h2)
      · exact Or.inl ((isPfxOf_iff n (c :: t)).mpr h1)
      · exact Or.inr ((containsSub_iff n t).mpr h2)

/- ------------------------------------------------------------------ -/
/- Claims -/
/- ------------------------------------------------------------------ -/

/-- C8: parse_key never emits an empty field Step for any input — a
leading '.' or doubled '.' is silently skipped, so parse_key "a..b" =
parse_key "a.b" = [fld "a", fld "b"] — and the empty string parses to the
empty step sequence without error. -/
theorem c8_empty_segments_tolerated :
    (∀ (k : String) (parts : List Part), parse_key k = .ok parts →
      ∀ s, Part.fld s ∈ parts → s ≠ "") ∧
    parse_key "a..b" = .ok [.fld "a", .fld "b"] ∧
    parse_key "a.b" = .ok [.fld "a", .fld "b"] ∧
    parse_key ".a" = .ok [.fld "a"] ∧
    parse_key "" = .ok [] := by
  refine ⟨?_, rfl, rfl, rfl, rfl⟩
  intro k parts h s hs
  exact parseList_noEmpty k.toList parts h s hs

/-- Witness for C8 at the concrete key "a.b". -/
theorem c8_witness : ("a" : String) ≠ "" :=
  c8_empty_segments_tolerated.1 "a.b" [.fld "a", .fld "b"] rfl "a" (by simp)

/-- C7: for every key that parse accepts, key_depth equals the number of
steps minus one, and for every malformed key, key_depth fails with the
same error kind (ValueError) as parse. -/
theorem c7_key_depth :
    ∀ (k : String),
      (∀ parts, parse_key k = .ok parts →
        key_depth k = .ok ((parts.length : Int) - 1)) ∧
      (∀ e, parse_key k = .error e →
        key_depth k = .error .valueError ∧ e = .valueError) := by
  intro k
  constructor
  · intro parts h
    unfold key_depth
    rw [h]
  · intro e h
    refine ⟨?_, parseList_error k.toList e h⟩
    unfold key_depth
    rw [h]

/-- Witness for C7 at the docstring example key of depth 4 and at a
malformed key. -/
theorem c7_witness :
    key_depth "A[0].B[1].C" = .ok 4 ∧
    key_depth "obj[key]" = .error .valueError :=
  ⟨(c7_key_depth "A[0].B[1].C").1 [.fld "A", .idx 0, .fld "B", .idx 1, .fld "C"] rfl,
   ((c7_key_depth "obj[key]").2 .valueError rfl).1⟩

/-- C4 counterexample: a '[' never closed before end of input does not
raise — parse_key "a[1" returns [fld "a"], silently discarding the pending
index, contradicting the claim that it raises the malformed-key error. -/
theorem c4_cex : parse_key "a[1" = .ok [.fld "a"] := rfl

/-- C4 (amended): parse_key raises ValueError when an index segment holds
an ASCII character that is not a decimal digit nor one of the structural
characters '.', '[' and ']' (e.g. "obj[key]"), and when ']' arrives while
the index buffer is empty (e.g. "[[1]]", or a ']' with no open '['); but
an unclosed '[' at end of input does not raise — the pending index is
silently discarded.  The non-digit clause is stated only for ASCII-range
characters, where the model's digit test coincides with Python's
isdigit(); non-ASCII characters that Python's Unicode isdigit() accepts
inside brackets are outside its scope. -/
theorem c4_malformed_keys :
    (∀ cs : List Char, parseList (']' :: cs) = .error .valueError) ∧
    (∀ (c : Char) (cs : List Char), c.toNat < 128 → isDig c = false →
      c ≠ '.' → c ≠ '[' → c ≠ ']' →
      parseList ('[' :: c :: cs) = .error .valueError) ∧
    parse_key "obj[key]" = .error .valueError ∧
    parse_key "[[1]]" = .error .valueError ∧
    parse_key "a]" = .error .valueError ∧
    parse_key "a[1" = .ok [.fld "a"] := by
  refine ⟨?_, ?_, rfl, rfl, rfl, rfl⟩
  · intro cs
    have hstep : stepP initSt ']' = .error .valueError := rfl
    simp [parseList, runP, hstep]
  · intro c cs _hascii hd h1 h2 h3
    have hstep : stepP initSt '[' = .ok ⟨[], [], true, []⟩ := rfl
    have hstep2 : stepP ⟨[], [], true, []⟩ c = .error .valueError := by
      unfold stepP
      rw [if_neg h1, if_neg h2, if_neg h3]
      simp [hd]
    simp [parseList, runP, hstep, hstep2]

/-- Witness for C4's general clauses at ']' and at a concrete ASCII
non-digit character inside brackets. -/
theorem c4_witness :
    parseList (']' :: ['a']) = .error .valueError ∧
    parseList ('[' :: 'x' :: []) = .error .valueError :=
  ⟨c4_malformed_keys.1 ['a'],
   c4_malformed_keys.2.1 'x' [] (by decide) rfl (by decide) (by decide)
     (by decide)⟩

/-- C2 counterexample: a field-access step applied to a Sequence makes
subscript access raise the type-mismatch kind (TypeError), which is not
the single not-found kind, so the three failure causes are
distinguishable. -/
theorem c2_cex :
    Search.getitem ⟨.vSeq [.vInt 1], ["[0]"], none⟩ "a" = .error .typeError ∧
    PyErr.typeError ≠ PyErr.keyError :=
  ⟨rfl, by decide⟩

/-- C2 (amended): __getitem__ normalizes only the missing-field and
out-of-range failures (KeyError/IndexError) into the single not-found
kind; a kind mismatch (field step on a Sequence, or a step on a non-text
Scalar) raises TypeError, which propagates unnormalized. -/
theorem c2_getitem_normalization :
    (∀ (s : Search) (k : String), s.get k = .error .keyError →
      s.getitem k = .error .keyError) ∧
    (∀ (s : Search) (k : String), s.get k = .error .indexError →
      s.getitem k = .error .keyError) ∧
    (∀ (s : Search) (k : String), s.get k = .error .typeError →
      s.getitem k = .error .typeError) ∧
    (∀ (s : Search) (k : String) (v : TreeV), s.get k = .ok v →
      s.getitem k = .ok v) ∧
    Search.getitem ⟨.vObj [("a", .vInt 1)], ["a"], none⟩ "b" = .error .keyError ∧
    Search.getitem ⟨.vSeq [.vInt 1], ["[0]"], none⟩ "[5]" = .error .keyError ∧
    Search.getitem ⟨.vSeq [.vInt 1], ["[0]"], none⟩ "x" = .error .typeError := by
  refine ⟨?_, ?_, ?_, ?_, rfl, rfl, rfl⟩
  · intro s k h
    unfold Search.getitem
    rw [h]
  · intro s k h
    unfold Search.getitem
    rw [h]
  · intro s k h
    unfold Search.getitem
    rw [h]
  · intro s k v h
    unfold Search.getitem
    rw [h]

/-- Witness for C2 at a concrete missing field. -/
theorem c2_witness :
    Search.getitem ⟨.vObj [], [], none⟩ "z" = .error .keyError :=
  c2_getitem_normalization.1 ⟨.vObj [], [], none⟩ "z" rfl

/-- C9 counterexample: two Searches with equal caches and equal public
(empty-string-defaulted) prefixes are not equal under __eq__, because the
raw _prefix fields None and "" differ. -/
theorem c9_cex :
    Search.beq ⟨.vNone, ["k"], none⟩ ⟨.vNone, ["k"], some ""⟩ = false ∧
    Search.pfxStr ⟨.vNone, ["k"], none⟩ = Search.pfxStr ⟨.vNone, ["k"], some ""⟩ ∧
    Search.cache ⟨.vNone, ["k"], none⟩ = Search.cache ⟨.vNone, ["k"], some ""⟩ :=
  ⟨rfl, rfl, rfl⟩

/-- C9 (amended): __eq__ holds iff the caches are equal and the raw
_prefix fields are equal (None is distinct from the empty string); the
tree is never compared, so Searches over different trees with equal cache
and raw prefix are equal. -/
theorem c9_beq :
    (∀ a b : Search,
      Search.beq a b = true ↔ (a.cache = b.cache ∧ a.pfx = b.pfx)) ∧
    (∀ (t t2 : TreeV) (c : List String) (p : Option String),
      Search.beq ⟨t, c, p⟩ ⟨t2, c, p⟩ = true) := by
  constructor
  · intro a b
    unfold Search.beq
    rw [Bool.and_eq_true, beq_iff_eq, beq_iff_eq]
  · intro t t2 c p
    unfold Search.beq
    simp

/-- Witness for C9: equality at a concrete pair of Searches over
different trees. -/
theorem c9_witness :
    Search.beq ⟨.vInt 1, ["a"], some "p"⟩ ⟨.vBool true, ["a"], some "p"⟩ = true :=
  (c9_beq.2) (.vInt 1) (.vBool true) ["a"] (some "p")

/-- C10: get reads only the wrapped tree — it is independent of the cache
and prefix, so find/max_depth/fixed_depth filtering narrows only
flat_keys, never what get can resolve. -/
theorem c10_get_cache_independent :
    (∀ (t : TreeV) (c c2 : List String) (p p2 : Option String) (k : String),
      Search.get ⟨t, c, p⟩ k = Search.get ⟨t, c2, p2⟩ k) ∧
    (∀ (s : Search) (suffix k : String), (s.find suffix).get k = s.get k) ∧
    (∀ (s : Search) (d : Int) (s2 : Search), s.max_depth d = .ok s2 →
      ∀ k, s2.get k = s.get k) ∧
    (∀ (s : Search) (d : Int) (s2 : Search), s.fixed_depth d = .ok s2 →
      ∀ k, s2.get k = s.get k) := by
  have hbase : ∀ (t : TreeV) (c c2 : List String) (p p2 : Option String)
      (k : String), Search.get ⟨t, c, p⟩ k = Search.get ⟨t, c2, p2⟩ k := by
    intro t c c2 p p2 k
    unfold Search.get
    rfl
  refine ⟨hbase, ?_, ?_, ?_⟩
  · intro s suffix k
    cases s with
    | mk t c p => exact hbase t _ c _ p k
  · intro s d s2 h k
    unfold Search.max_depth at h
    cases hdf : depthFilter (fun x => decide (x ≤ d)) s.cache with
    | ok c2 =>
      rw [hdf] at h
      injection h with h2
      subst h2
      cases s with
      | mk t c p => exact hbase t c2 c _ p k
    | error e =>
      rw [hdf] at h
      cases h
  · intro s d s2 h k
    unfold Search.fixed_depth at h
    cases hdf : depthFilter (fun x => decide (x = d)) s.cache with
    | ok c2 =>
      rw [hdf] at h
      injection h with h2
      subst h2
      cases s with
      | mk t c p => exact hbase t c2 c _ p k
    | error e =>
      rw [hdf] at h
      cases h

/-- Witness for C10: the max_depth clause applied at a concrete Search. -/
theorem c10_witness :
    Search.get ⟨.vObj [("a", .vInt 1)], ["a"], some ""⟩ "a" =
      Search.get ⟨.vObj [("a", .vInt 1)], ["a"], none⟩ "a" :=
  c10_get_cache_independent.2.2.1 ⟨.vObj [("a", .vInt 1)], ["a"], none⟩ 5
    ⟨.vObj [("a", .vInt 1)], ["a"], some ""⟩ rfl "a"

/-- C6: find is a substring filter — same tree, same public prefix, and
the cache is the order-preserving subsequence of the old cache holding
exactly the keys in which the suffix occurs as a contiguous substring
anywhere; on the spec example it keeps the two batch_size keys. -/
theorem c6_find_substring_filter :
    (∀ (s : Search) (suffix : String),
      (s.find suffix).obj = s.obj ∧
      (s.find suffix).pfxStr = s.pfxStr ∧
      (s.find suffix).cache.Sublist s.cache ∧
      (∀ k ∈ s.cache, (k ∈ (s.find suffix).cache ↔ OccursIn suffix k))) ∧
    (Search.find
        ⟨.vObj [], ["train.batch_size", "valid.batch_size", "model_name"], none⟩
        "batch_size").cache = ["train.batch_size", "valid.batch_size"] := by
  refine ⟨?_, rfl⟩
  intro s suffix
  refine ⟨rfl, rfl, List.filter_sublist s.cache, ?_⟩
  intro k hk
  show k ∈ s.cache.filter (fun k => occursB suffix k) ↔ _
  rw [List.mem_filter]
  unfold occursB OccursIn
  constructor
  · rintro ⟨_, hocc⟩
    exact (containsSub_iff suffix.toList k.toList).mp hocc
  · intro hocc
    exact ⟨hk, (containsSub_iff suffix.toList k.toList).mpr hocc⟩

/-- Witness for C6: membership clause applied at the non-matching key of
the spec example. -/
theorem c6_witness :
    ("model_name" ∈ (Search.find
        ⟨.vObj [], ["train.batch_size", "valid.batch_size", "model_name"], none⟩
        "batch_size").cache ↔ OccursIn "batch_size" "model_name") :=
  (c6_find_substring_filter.1
      ⟨.vObj [], ["train.batch_size", "valid.batch_size", "model_name"], none⟩
      "batch_size").2.2.2 "model_name" (by simp)

/-- C3 counterexample: the tree {"]": 1} has arbitrary-text field name
"]"; flattening produces the key "]", on which parse_key raises, so the
round-trip claim fails for arbitrary field names. -/
theorem c3_cex :
    flattenKeys (.vObj [("]", .vInt 1)]) none = ["]"] ∧
    parse_key "]" = .error .valueError :=
  ⟨rfl, rfl⟩

/-- C3 (amended): for every tree whose Object field names are non-empty
and free of the key alphabet's special characters '.', '[' and ']', every
key produced by the flattening walk parses successfully and
assemble_key(parse_key(key)) = key. -/
theorem c3_roundtrip (t : TreeV) (h : namesOk t = true)
    (k : String) (hk : k ∈ flattenKeys t none) :
    ∃ parts, parse_key k = .ok parts ∧ assemble_key parts = k := by
  rw [flattenKeys_none_eq t] at hk
  obtain ⟨pa, hpa, hEq⟩ := List.mem_map.mp hk
  subst hEq
  have hgood : goodParts pa = true := leafPaths_good t h pa hpa
  refine ⟨pa, ?_, ?_⟩
  · show parseList (String.mk (stripDotsL (renderParts pa))).toList = .ok pa
    exact parseList_strip_render pa hgood
  · unfold assemble_key
    rw [asmChars_eq_render pa hgood]

/-- Witness for C3 at the docstring example tree. -/
theorem c3_witness :
    ∃ parts, parse_key "b[0].x" = .ok parts ∧ assemble_key parts = "b[0].x" :=
  c3_roundtrip
    (.vObj [("a", .vObj [("one", .vInt 1), ("two", .vInt 2)]),
            ("b", .vSeq [.vObj [("x", .vInt 3)], .vObj [("y", .vInt 4)]])])
    rfl "b[0].x" (by decide)

/-- C5 counterexample: the tree {"a.b": 1} yields the single cache key
"a.b", but resolving that cached key via get fails (the parse splits the
field name), so the leaf value 1 is lost, contradicting the claim for
arbitrary trees. -/
theorem c5_cex :
    flattenKeys (.vObj [("a.b", .vInt 1)]) none = ["a.b"] ∧
    Search.get ⟨.vObj [("a.b", .vInt 1)], ["a.b"], none⟩ "a.b" =
      .error .keyError :=
  ⟨rfl, rfl⟩

/-- C5 (amended): for every finite tree whose Object field names are
non-empty and free of '.', '[' and ']' (Objects being mappings, field
names within a node are distinct), constructing a Search without
max_depth produces exactly one cache key per Scalar leaf (none for empty
Containers, Containers, or the root), and resolving the cached keys via
get yields exactly the leaf values of the tree, in walk order, with no
loss or duplication; the input [[["one"]], ["two"], "three", []] yields
exactly the keys ["[0][0][0]", "[1][0]", "[2]"] in that order. -/
theorem c5_flatten_complete :
    (∀ (t : TreeV), namesOk t = true → nodupTree t = true →
      (Search.make t none none none).cache.map
          (fun k => (Search.make t none none none).get k) =
        (leafVals t).map Except.ok ∧
      (Search.make t none none none).cache.length = (leafVals t).length) ∧
    flattenKeys
        (.vSeq [.vSeq [.vSeq [.vStr "one"]], .vSeq [.vStr "two"],
                .vStr "three", .vSeq []]) none =
      ["[0][0][0]", "[1][0]", "[2]"] := by
  refine ⟨?_, rfl⟩
  intro t hn hd
  have hcache : (Search.make t none none none).cache = flattenKeys t none := rfl
  have hmain : (flattenKeys t none).map
      (fun k => (Search.make t none none none).get k) =
      (leafVals t).map Except.ok := by
    rw [flattenKeys_none_eq t, List.map_map]
    have hpoint : ∀ pa ∈ leafPaths t,
        ((fun k => (Search.make t none none none).get k) ∘
          (fun pa => String.mk (stripDotsL (renderParts pa)))) pa =
          resolveSteps t pa := by
      intro pa hpa
      have hgood : goodParts pa = true := leafPaths_good t hn pa hpa
      show (Search.make t none none none).get
          (String.mk (stripDotsL (renderParts pa))) = resolveSteps t pa
      unfold Search.get
      have hparse : parse_key (String.mk (stripDotsL (renderParts pa))) =
          .ok pa := parseList_strip_render pa hgood
      rw [hparse]
      rfl
    rw [List.map_congr_left hpoint]
    exact resolveLeafPaths t hd
  refine ⟨by rw [hcache]; exact hmain, ?_⟩
  rw [hcache]
  have := congrArg List.length hmain
  simpa using this

/-- Witness for C5 at the heterogeneous docstring example tree. -/
theorem c5_witness :
    (Search.make
        (.vObj [("a", .vObj [("one", .vInt 1), ("two", .vInt 2)]),
                ("b", .vSeq [.vObj [("x", .vInt 3)], .vObj [("y", .vInt 4)]])])
        none none none).cache.map
        (fun k => (Search.make
          (.vObj [("a", .vObj [("one", .vInt 1), ("two", .vInt 2)]),
                  ("b", .vSeq [.vObj [("x", .vInt 3)], .vObj [("y", .vInt 4)]])])
          none none none).get k) =
      (leafVals
        (.vObj [("a", .vObj [("one", .vInt 1), ("two", .vInt 2)]),
                ("b", .vSeq [.vObj [("x", .vInt 3)], .vObj [("y", .vInt 4)]])])).map
        Except.ok :=
  (c5_flatten_complete.1
    (.vObj [("a", .vObj [("one", .vInt 1), ("two", .vInt 2)]),
            ("b", .vSeq [.vObj [("x", .vInt 3)], .vObj [("y", .vInt 4)]])])
    rfl rfl).1

/-- C1 counterexample: over the tree {"ab": 1, "a": {"x": 2}} with cache
["ab", "a.x"], the prefix "a" resolves, the cache key "ab" starts with
"a" as a string, yet subsearch("a").get on the transformed key "b" fails
while get("ab") returns 1 — the claimed equality fails on a prefix that
does not end on a segment boundary. -/
theorem c1_cex :
    Search.subsearch ⟨.vObj [("ab", .vInt 1), ("a", .vObj [("x", .vInt 2)])],
        ["ab", "a.x"], none⟩ "a" =
      .ok ⟨.vObj [("x", .vInt 2)], ["b", "x"], some "a"⟩ ∧
    "ab" ∈ (["ab", "a.x"] : List String) ∧
    startsWithB "a" "ab" = true ∧
    stripDots (dropPfxStr "a" "ab") = "b" ∧
    Search.get ⟨.vObj [("x", .vInt 2)], ["b", "x"], some "a"⟩ "b" =
      .error .keyError ∧
    Search.get ⟨.vObj [("ab", .vInt 1), ("a", .vObj [("x", .vInt 2)])],
        ["ab", "a.x"], none⟩ "ab" = .ok (.vInt 1) ∧
    (Except.error PyErr.keyError : Except PyErr TreeV) ≠ .ok (.vInt 1) :=
  ⟨rfl, by simp, rfl, rfl, rfl, rfl, by simp⟩

/-- C1 (amended): subsearch correctness holds on segment boundaries: when
the parse of the prefix p ends outside an index bracket, s.get(p)
resolves to a node, and a cache key k extends p by a remainder that is
empty or begins with '.' or '[', then subsearch(p) succeeds, the
transformed key (p stripped, then '.' stripped) is in the new cache, and
resolving it in the subsearch equals resolving k in s. -/
theorem c1_subsearch_boundary (s : Search) (p k : String) (node : TreeV)
    (stP : PState) (hrun : runP p.toList initSt = .ok stP)
    (hdig : stP.dig = false) (hget : s.get p = .ok node)
    (hmem : k ∈ s.cache)
    (hrem : ∃ rem, k.toList = p.toList ++ rem ∧
      (rem = [] ∨ rem.head? = some '.' ∨ rem.head? = some '[')) :
    ∃ s2, s.subsearch p = .ok s2 ∧
      stripDots (dropPfxStr p k) ∈ s2.cache ∧
      s2.get (stripDots (dropPfxStr p k)) = s.get k := by
  obtain ⟨rem, hk, hbound⟩ := hrem
  have hpp : parse_key p = .ok (flushSk stP.sk stP.parts) := by
    unfold parse_key parseList
    rw [hrun]
  have hres : resolveSteps s.obj (flushSk stP.sk stP.parts) = .ok node := by
    unfold Search.get at hget
    rw [hpp] at hget
    exact hget
  have hsub : s.subsearch p = .ok ⟨node,
      (s.cache.filter (fun k2 => startsWithB p k2)).map
        (fun k2 => stripDots (dropPfxStr p k2)), some p⟩ := by
    unfold Search.subsearch
    rw [hget]
  have hsw : startsWithB p k = true := by
    unfold startsWithB
    rw [hk]
    exact isPfxOf_append_self p.toList rem
  have hdrop : dropPfxStr p k = String.mk rem := by
    unfold dropPfxStr
    rw [if_pos hsw, hk, List.drop_left]
  have hkparse : parse_key (stripDots (dropPfxStr p k)) = parseList rem := by
    rw [hdrop]
    show parseList (stripDotsL rem) = parseList rem
    exact parseList_stripDotsL rem
  have hkdec : parse_key k = (parseList rem).map
      (fun q => flushSk stP.sk stP.parts ++ q) := by
    show parseList k.toList = _
    rw [hk]
    exact parseList_decomp p.toList rem stP hrun hdig hbound
  refine ⟨_, hsub, ?_, ?_⟩
  · exact List.mem_map.mpr ⟨k, List.mem_filter.mpr ⟨hmem, hsw⟩, rfl⟩
  · unfold Search.get
    rw [hkparse, hkdec]
    cases hq : parseList rem with
    | error e => simp [Except.map]
    | ok qq =>
      simp only [Except.map]
      show resolveSteps node qq =
        resolveSteps s.obj (flushSk stP.sk stP.parts ++ qq)
      rw [resolveSteps_append, hres]

/-- Witness for C1 at the spec scenario tree, prefix "train" and cache
key "train.bs". -/
theorem c1_witness :
    ∃ s2, Search.subsearch ⟨.vObj [("train", .vObj [("bs", .vInt 64)]),
        ("valid", .vObj [("bs", .vInt 128)])], ["train.bs", "valid.bs"], none⟩
        "train" = .ok s2 ∧
      stripDots (dropPfxStr "train" "train.bs") ∈ s2.cache ∧
      s2.get (stripDots (dropPfxStr "train" "train.bs")) =
        Search.get ⟨.vObj [("train", .vObj [("bs", .vInt 64)]),
          ("valid", .vObj [("bs", .vInt 128)])], ["train.bs", "valid.bs"], none⟩
          "train.bs" :=
  c1_subsearch_boundary _ "train" "train.bs" (.vObj [("bs", .vInt 64)])
    ⟨['t', 'r', 'a', 'i', 'n'], [], false, []⟩ rfl rfl rfl (by simp)
    ⟨['.', 'b', 's'], rfl, Or.inr (Or.inl rfl)⟩

end Needle
